import Mathlib

/-!
# Verification of the tRNA coordinate-unification core (`trnas_in_space.py`)

Shallow embedding of the coordinate-unification engine of the repository
`lkwhite/tRNAs-in-space`:

* label normalization and the label comparator `sort_key`
  (`scripts/trnas_in_space.py`, and the older variant in
  `scripts/make_sprinzl_continuous.py`);
* the two-pass monotone gap-fill for missing `sprinzl_index`
  (`collect_rows_from_json`);
* the per-molecule continuous-coordinate interpolation
  (`make_continuous_for_trna`);
* the global label order (`build_global_label_order`), global index
  assignment, and the collision validator
  (`validate_no_global_index_collisions`).

Modelling conventions:

* Python strings are Lean `String`s handled through their `List Char` data;
  Python string comparison (by code point) is `charListLt`; `\d` / `[A-Za-z]`
  are modelled over ASCII via `Char.isDigit` / `Char.isAlpha`.
* Python floats are modelled as exact rationals `ℚ`; `float('nan')` cells are
  `Option.none`.
* `sys.exit(1)` is modelled as `Except.error`; normal return as `Except.ok`.
* A pandas `DataFrame` of rows is a `List` of structures; `df.copy()` is the
  value itself (value semantics make later writes to the copy invisible to
  the original, exactly like a deep pandas copy).
-/

namespace TrnasInSpace

/-! ## String primitives (Python semantics) -/

/-- Python string `<` (lexicographic by code point) on the character data. -/
def charListLt : List Char → List Char → Bool
  | [], [] => false
  | [], _ :: _ => true
  | _ :: _, [] => false
  | a :: as, b :: bs =>
    if a.toNat < b.toNat then true
    else if a.toNat = b.toNat then charListLt as bs
    else false

/-- Characters stripped by Python `str.strip()` (ASCII whitespace). -/
def isPySpace (c : Char) : Bool :=
  c = ' ' || c = '\t' || c = '\n' || c = '\r' || c = '\x0b' || c = '\x0c'

/-- Python `str.strip()`. -/
def pyStrip (s : String) : String :=
  String.mk (((s.data.dropWhile isPySpace).reverse.dropWhile isPySpace).reverse)

/-- Python `int()` on a nonempty string of ASCII digits. -/
def natOfDigits (l : List Char) : ℕ :=
  l.foldl (fun acc c => acc * 10 + (c.toNat - 48)) 0

/-- Python `str(n)` for a natural number. -/
def natStr (n : ℕ) : String := String.mk (Nat.toDigits 10 n)

/-- Python `f"{n:03d}"`: decimal, zero-padded on the left to width 3. -/
def pad3 (n : ℕ) : String :=
  if n < 10 then String.mk ('0' :: '0' :: Nat.toDigits 10 n)
  else if n < 100 then String.mk ('0' :: Nat.toDigits 10 n)
  else natStr n

/-- Python `str.upper()` (ASCII). -/
def upperStr (s : String) : String := String.mk (s.data.map Char.toUpper)

/-! ## Label parsing (`trnas_in_space.py`) -/

/-- `re.fullmatch(r"e(\d+)", s)`: returns the numeric part. -/
def parseE (s : String) : Option ℕ :=
  match s.data with
  | 'e' :: rest =>
    if rest ≠ [] ∧ rest.all Char.isDigit then some (natOfDigits rest) else none
  | _ => none

/-- `re.fullmatch(r"(\d+)([A-Za-z]+)?", s)`: numeric base and (possibly
empty) alphabetic suffix. -/
def parseNumSuf (s : String) : Option (ℕ × String) :=
  match s.data.span Char.isDigit with
  | (ds, suf) =>
    if ds ≠ [] ∧ suf.all Char.isAlpha then some (natOfDigits ds, String.mk suf)
    else none

/-- `re.fullmatch(r"(\d+)\.(\d+)", s)`: base and fractional digits. -/
def parseDotted (s : String) : Option (ℕ × ℕ) :=
  match s.data.span Char.isDigit with
  | (ds, rest) =>
    match rest with
    | '.' :: fs =>
      if ds ≠ [] ∧ fs ≠ [] ∧ fs.all Char.isDigit then
        some (natOfDigits ds, natOfDigits fs)
      else none
    | _ => none

/-- `re.fullmatch(r"(\d+)\.0", s)`: the digits of a float-formatted label. -/
def parseFloatZero (s : String) : Option String :=
  match s.data.span Char.isDigit with
  | (ds, rest) =>
    if ds ≠ [] ∧ rest = ['.', '0'] then some (String.mk ds) else none

/-- `normalize_label` from `trnas_in_space.py`: strip whitespace, map
`""`/`"nan"` to `""`, and `"N.0"` to `"N"`. -/
def normalize_label (lbl : String) : String :=
  let s := pyStrip lbl
  if s = "" ∨ s = "nan" then ""
  else
    match parseFloatZero s with
    | some ds => ds
    | none => s

/-- The static biological traversal order for extended variable-arm
positions (`E_POSITION_BIOLOGICAL_ORDER` in `trnas_in_space.py`). -/
def E_POSITION_BIOLOGICAL_ORDER : List String :=
  ["e11", "e12", "e13", "e14", "e15", "e16", "e17",
   "e18", "e19", "e20",
   "e1", "e2", "e3", "e4", "e5",
   "e6", "e7", "e8", "e9", "e10",
   "e27", "e26", "e25", "e24", "e23", "e22", "e21"]

/-- Position of a string in a list (`E_POSITION_ORDER_MAP` lookup). -/
def listIdx (x : String) : List String → Option ℕ
  | [] => none
  | y :: t => if x = y then some 0 else (listIdx x t).map (· + 1)

/-- A comparator key: `(base, tier, suborder)` as produced by `sort_key` in
`trnas_in_space.py` (every suborder is a string there). -/
abbrev Key := ℕ × ℕ × String

/-- `sort_key` from `trnas_in_space.py` (lines 462-498). -/
def sort_key (lbl : String) : Key :=
  let s := normalize_label lbl
  if s = "" then (1000000000, 2, "")
  else
    match parseE s with
    | some _ =>
      match listIdx s E_POSITION_BIOLOGICAL_ORDER with
      | some r => (45, 2, pad3 r)
      | none => (45, 3, s)
    | none =>
      match parseNumSuf s with
      | some p => (p.1, if p.2 = "" then 0 else 1, upperStr p.2)
      | none =>
        match parseDotted s with
        | some q => (q.1, 1, pad3 q.2)
        | none => (999999999, 2, s)

/-- Python `<` on key tuples: lexicographic comparison, the suborders being
compared as Python strings (by code point). -/
def keyLt (a b : Key) : Prop :=
  a.1 < b.1 ∨ (a.1 = b.1 ∧
    (a.2.1 < b.2.1 ∨ (a.2.1 = b.2.1 ∧ charListLt a.2.2.data b.2.2.data = true)))

instance : DecidableRel keyLt := fun a b => by unfold keyLt; infer_instance

/-- The order in which Python's stable `sorted(..., key=sort_key)` leaves two
labels: `a` may stay before `b` iff `sort_key b < sort_key a` fails. -/
def label_le (a b : String) : Prop := ¬ keyLt (sort_key b) (sort_key a)

instance : DecidableRel label_le := fun a b => by unfold label_le; infer_instance

/-! ## Order theory for the comparator -/

theorem char_toNat_inj {a b : Char} (h : a.toNat = b.toNat) : a = b :=
  Char.eq_of_val_eq (UInt32.ext h)

theorem charListLt_irrefl : ∀ l : List Char, charListLt l l = false := by
  intro l
  induction l with
  | nil => rfl
  | cons a t ih => simp [charListLt, ih]

theorem charListLt_trans : ∀ l₁ l₂ l₃ : List Char,
    charListLt l₁ l₂ = true → charListLt l₂ l₃ = true → charListLt l₁ l₃ = true := by
  intro l₁
  induction l₁ with
  | nil =>
    intro l₂ l₃ h12 h23
    cases l₂ with
    | nil => simp [charListLt] at h12
    | cons b bs =>
      cases l₃ with
      | nil => simp [charListLt] at h23
      | cons c cs => simp [charListLt]
  | cons a as ih =>
    intro l₂ l₃ h12 h23
    cases l₂ with
    | nil => simp [charListLt] at h12
    | cons b bs =>
      cases l₃ with
      | nil => simp [charListLt] at h23
      | cons c cs =>
        simp only [charListLt] at h12 h23 ⊢
        by_cases hab : a.toNat < b.toNat
        · by_cases hbc : b.toNat < c.toNat
          · rw [if_pos (Nat.lt_trans hab hbc)]
          · rw [if_neg hbc] at h23
            by_cases hbc' : b.toNat = c.toNat
            · rw [if_pos (hbc' ▸ hab)]
            · rw [if_neg hbc'] at h23
              exact absurd h23 (by simp)
        · rw [if_neg hab] at h12
          by_cases hab' : a.toNat = b.toNat
          · rw [if_pos hab'] at h12
            by_cases hbc : b.toNat < c.toNat
            · rw [if_pos (hab' ▸ hbc)]
            · rw [if_neg hbc] at h23
              by_cases hbc' : b.toNat = c.toNat
              · rw [if_pos hbc'] at h23
                have hac : a.toNat = c.toNat := hab'.trans hbc'
                have hnac : ¬ a.toNat < c.toNat := by omega
                rw [if_neg hnac, if_pos hac]
                exact ih bs cs h12 h23
              · rw [if_neg hbc'] at h23
                exact absurd h23 (by simp)
          · rw [if_neg hab'] at h12
            exact absurd h12 (by simp)

theorem charListLt_connex : ∀ l₁ l₂ : List Char,
    charListLt l₁ l₂ = false → charListLt l₂ l₁ = false → l₁ = l₂ := by
  intro l₁
  induction l₁ with
  | nil =>
    intro l₂ h12 _
    cases l₂ with
    | nil => rfl
    | cons b bs => simp [charListLt] at h12
  | cons a as ih =>
    intro l₂ h12 h21
    cases l₂ with
    | nil => simp [charListLt] at h21
    | cons b bs =>
      simp only [charListLt] at h12 h21
      by_cases hab : a.toNat < b.toNat
      · rw [if_pos hab] at h12
        exact absurd h12 (by simp)
      · by_cases hba : b.toNat < a.toNat
        · rw [if_pos hba] at h21
          exact absurd h21 (by simp)
        · have heq : a.toNat = b.toNat :=
            Nat.le_antisymm (Nat.le_of_not_lt hba) (Nat.le_of_not_lt hab)
          rw [if_neg hab, if_pos heq] at h12
          rw [if_neg hba, if_pos heq.symm] at h21
          rw [char_toNat_inj heq, ih bs h12 h21]

theorem keyLt_irrefl (a : Key) : ¬ keyLt a a := by
  simp [keyLt, charListLt_irrefl]

theorem keyLt_trans {a b c : Key} (h₁ : keyLt a b) (h₂ : keyLt b c) : keyLt a c := by
  unfold keyLt at h₁ h₂ ⊢
  rcases h₁ with h₁ | ⟨e₁, h₁⟩
  · rcases h₂ with h₂ | ⟨e₂, _⟩
    · exact Or.inl (Nat.lt_trans h₁ h₂)
    · exact Or.inl (e₂ ▸ h₁)
  · rcases h₂ with h₂ | ⟨e₂, h₂⟩
    · exact Or.inl (e₁ ▸ h₂)
    · refine Or.inr ⟨e₁.trans e₂, ?_⟩
      rcases h₁ with h₁ | ⟨f₁, h₁⟩
      · rcases h₂ with h₂ | ⟨f₂, _⟩
        · exact Or.inl (Nat.lt_trans h₁ h₂)
        · exact Or.inl (f₂ ▸ h₁)
      · rcases h₂ with h₂ | ⟨f₂, h₂⟩
        · exact Or.inl (f₁ ▸ h₂)
        · exact Or.inr ⟨f₁.trans f₂, charListLt_trans _ _ _ h₁ h₂⟩

theorem keyLt_connex {a b : Key} (h₁ : ¬ keyLt a b) (h₂ : ¬ keyLt b a) : a = b := by
  unfold keyLt at h₁ h₂
  push_neg at h₁ h₂
  have e1 : a.1 = b.1 := Nat.le_antisymm h₂.1 h₁.1
  have h₁' := h₁.2 e1
  have h₂' := h₂.2 e1.symm
  have e2 : a.2.1 = b.2.1 := Nat.le_antisymm h₂'.1 h₁'.1
  have e3 : a.2.2.data = b.2.2.data :=
    charListLt_connex _ _ (Bool.not_eq_true _ ▸ h₁'.2 e2) (Bool.not_eq_true _ ▸ h₂'.2 e2.symm)
  exact Prod.ext e1 (Prod.ext e2 (congrArg String.mk e3))

theorem keyLt_asymm {a b : Key} (h : keyLt a b) : ¬ keyLt b a := by
  intro h'
  exact keyLt_irrefl a (keyLt_trans h h')

instance : IsTotal String label_le := by
  constructor
  intro a b
  by_cases h : keyLt (sort_key b) (sort_key a)
  · exact Or.inr (keyLt_asymm h)
  · exact Or.inl h

instance : IsTrans String label_le := by
  constructor
  intro a b c hab hbc
  unfold label_le at *
  intro hca
  by_cases h1 : keyLt (sort_key b) (sort_key a)
  · exact hab h1
  · by_cases h2 : keyLt (sort_key c) (sort_key b)
    · exact hbc h2
    · have e : sort_key b = sort_key a := by
        by_cases h3 : keyLt (sort_key a) (sort_key b)
        · exact absurd (keyLt_trans hca h3) hbc
        · exact keyLt_connex h1 h3
      exact hbc (e ▸ hca)

/-- Two sorted lists that are permutations of each other and whose elements
have pairwise-distinct comparator keys are equal. -/
theorem eq_of_perm_sorted_of_key_inj : ∀ (l₁ l₂ : List String),
    l₁.Perm l₂ → l₁.Pairwise label_le → l₂.Pairwise label_le →
    (∀ a ∈ l₁, ∀ b ∈ l₁, sort_key a = sort_key b → a = b) → l₁ = l₂ := by
  intro l₁
  induction l₁ with
  | nil =>
    intro l₂ hp _ _ _
    exact (List.Perm.nil_eq hp).symm ▸ rfl
  | cons a t₁ ih =>
    intro l₂ hp hs₁ hs₂ hinj
    cases l₂ with
    | nil => exact absurd hp.symm (by simp)
    | cons b t₂ =>
      have hmem_a : a ∈ b :: t₂ := hp.mem_iff.mp (by simp)
      have hmem_b : b ∈ a :: t₁ := hp.mem_iff.mpr (by simp)
      have hab : a = b := by
        rcases List.mem_cons.mp hmem_a with h | h
        · exact h
        rcases List.mem_cons.mp hmem_b with h' | h'
        · exact h'.symm
        -- a ∈ t₂, b ∈ t₁ : sortedness gives label_le both ways
        have le_ab : label_le a b := (List.pairwise_cons.mp hs₁).1 b h'
        have le_ba : label_le b a := (List.pairwise_cons.mp hs₂).1 a h
        exact hinj a (by simp) b (by simp [h']) (keyLt_connex le_ba le_ab)
      subst hab
      have hpt : t₁.Perm t₂ := (List.perm_cons a).mp hp
      have := ih t₂ hpt (List.pairwise_cons.mp hs₁).2 (List.pairwise_cons.mp hs₂).2
        (fun x hx y hy exy => hinj x (by simp [hx]) y (by simp [hy]) exy)
      rw [this]

/-! ## The older comparator of `make_sprinzl_continuous.py`

Its dotted branch returns a Python `int` as third tuple field while every
other branch returns a `str`; the third field is therefore `ℕ ⊕ String`. -/

/-- A key of `sort_key` in `make_sprinzl_continuous.py` (lines 23-35): the
third field is an `int` in the dotted branch and a `str` everywhere else. -/
abbrev MKey := ℕ × ℕ × (ℕ ⊕ String)

/-- `sort_key` from `make_sprinzl_continuous.py`: no whitespace stripping, no
`"N.0"` normalization, no extended-arm branch; the dotted branch returns
`int(m.group(2))` (left summand), all others a string (right summand). -/
def msc_sort_key (lbl : String) : MKey :=
  if lbl = "" ∨ lbl = "nan" then (1000000000, 2, Sum.inr "")
  else
    match parseNumSuf lbl with
    | some p => (p.1, if p.2 = "" then 0 else 1, Sum.inr (upperStr p.2))
    | none =>
      match parseDotted lbl with
      | some q => (q.1, 1, Sum.inl q.2)
      | none => (999999999, 2, Sum.inr lbl)

/-- Whether Python 3 can compare two such tuples with `<` without raising
`TypeError`: the comparison is resolved before the third field, or the third
fields have the same runtime type. -/
def mkey_comparable (a b : MKey) : Bool :=
  if a.1 ≠ b.1 then true
  else if a.2.1 ≠ b.2.1 then true
  else
    match a.2.2, b.2.2 with
    | Sum.inl _, Sum.inl _ => true
    | Sum.inr _, Sum.inr _ => true
    | _, _ => false

/-! ## Two-pass monotone gap-fill (`collect_rows_from_json`, lines 383-423)

The per-row `sprinzl_index` values of one molecule, in `seq_index` order;
missing values arrive as `-1`. -/

/-- The forward pass: carry `last`, keep valid indices, and increment from
the last known index across unlabeled rows. -/
def fwdAux : Option ℤ → List ℤ → List (Option ℤ)
  | _, [] => []
  | last, v :: rest =>
    if 1 ≤ v then some v :: fwdAux (some v) rest
    else
      match last with
      | some l => some (l + 1) :: fwdAux (some (l + 1)) rest
      | none => none :: fwdAux none rest

/-- `fwd` array of the source. -/
def fwd_pass (vals : List ℤ) : List (Option ℤ) := fwdAux none vals

/-- The backward pass walks the list from the right, decrementing from the
next known index; implemented as the forward-style walk of the reversal. -/
def bwdAux : Option ℤ → List ℤ → List (Option ℤ)
  | _, [] => []
  | nxt, v :: rest =>
    if 1 ≤ v then some v :: bwdAux (some v) rest
    else
      match nxt with
      | some x => some (x - 1) :: bwdAux (some (x - 1)) rest
      | none => none :: bwdAux none rest

/-- `bwd` array of the source. -/
def bwd_pass (vals : List ℤ) : List (Option ℤ) := (bwdAux none vals.reverse).reverse

/-- The final `elif` chain combining the original value with the two passes. -/
def resolve_index (v : ℤ) (f b : Option ℤ) : ℤ :=
  if 1 ≤ v then v
  else
    match f, b with
    | some x, some y => if x = y ∧ 1 ≤ x ∧ x ≤ 76 then x else -1
    | some x, none => if 1 ≤ x ∧ x ≤ 76 then x else -1
    | none, some y => if 1 ≤ y ∧ y ≤ 76 then y else -1
    | none, none => -1

/-- The gap-filled `sprinzl_index` column of one molecule. -/
def gap_fill (vals : List ℤ) : List ℤ :=
  List.zipWith (fun v fb => resolve_index v fb.1 fb.2) vals
    ((fwd_pass vals).zip (bwd_pass vals))

/-! ## Continuous coordinates (`make_continuous_for_trna`, lines 603-639)

One molecule's rows in `seq_index` order are represented by their ordinals:
`some o` for a labeled row (ordinal `o` from the global label order), `none`
for an unlabeled row. The output coordinates are exact rationals (`none` = `NaN`). -/

/-- Fill one maximal unlabeled run of length `k` given the labeled neighbor
ordinals (the `if`/`elif` chain of the source, floats as exact rationals). -/
def fillRun (left right : Option ℕ) (k : ℕ) : List (Option ℚ) :=
  match left, right with
  | some L, some R =>
    if L + 1 ≤ R then
      (List.range k).map (fun t : ℕ => some ((L : ℚ) + ((t : ℚ) + 1) / ((k : ℚ) + 1)))
    else List.replicate k none
  | none, some R =>
    (List.range k).map (fun t : ℕ => some ((R : ℚ) - ((k : ℚ) - (t : ℚ)) / ((k : ℚ) + 1)))
  | some L, none =>
    (List.range k).map (fun t : ℕ => some ((L : ℚ) + ((t : ℚ) + 1) / ((k : ℚ) + 1)))
  | none, none => List.replicate k none

/-- The `while` loop of `make_continuous_for_trna`: `prev` is the ordinal of
the most recent labeled row (the run's left neighbor — the row immediately
before a maximal run is labeled), `pending` the number of unlabeled rows
seen whose run is not yet closed by a labeled row or the end of the list. -/
def mc_go (prev : Option ℕ) (pending : ℕ) : List (Option ℕ) → List (Option ℚ)
  | [] => fillRun prev none pending
  | some o :: rest => fillRun prev (some o) pending ++ some (o : ℚ) :: mc_go (some o) 0 rest
  | none :: rest => mc_go prev (pending + 1) rest

/-- `make_continuous_for_trna` on one molecule's ordinal column. -/
def make_continuous (ords : List (Option ℕ)) : List (Option ℚ) := mc_go none 0 ords

/-! ## Global label order (`build_global_label_order`, lines 597-600) -/

/-- `p not in ("", "nan")`. -/
def validLabel (p : String) : Bool := decide (p ≠ "" ∧ p ≠ "nan")

/-- `build_global_label_order`: the distinct valid labels (the Python `set`,
whose unordered contents are modelled as `dedup` of the presentation list),
sorted stably by `sort_key`, together with the dense `{label: ordinal}`
mapping `1..K` in sorted order. -/
def build_global_label_order (pref : List String) : List String × List (String × ℕ) :=
  let uniq := List.insertionSort label_le ((pref.filter validLabel).dedup)
  (uniq, uniq.enum.map (fun p => (p.2, p.1 + 1)))

/-! ## Global index assignment (`generate_coordinates_for_type` lines
764-768 / `main` lines 955-959) -/

/-- `round(x, 6)` of the source, on exact rationals (`PRECISION = 6`). -/
def round6 (q : ℚ) : ℚ := (round (q * 1000000) : ℚ) / 1000000

/-- Position of a rational in a list (the `{v: i+1}` dict built by
`enumerate` resolves a value to its position in the unique sorted list). -/
def idxQ (a : ℚ) : List ℚ → ℕ
  | [] => 0
  | b :: l => if a = b then 0 else idxQ a l + 1

/-- `uniq_cont`: the distinct rounded continuous coordinates of the whole
batch, sorted ascending (`sorted(cont_round.dropna().unique().tolist())`). -/
def uniq_cont (cont : List (Option ℚ)) : List ℚ :=
  List.insertionSort (· ≤ ·) (((cont.filterMap id).map round6).dedup)

/-- The `global_index` column: each rounded coordinate is mapped through the
dense `{value: ordinal}` dict; `NaN` coordinates stay `NaN` (`Int64` NA). -/
def global_index_col (cont : List (Option ℚ)) : List (Option ℕ) :=
  cont.map (Option.map (fun q => idxQ (round6 q) (uniq_cont cont) + 1))

/-! ## Collision validator (`validate_no_global_index_collisions`,
lines 269-313) -/

/-- One row of the batch table as seen by the validator. -/
structure VRow where
  trna_id : String
  global_index : Option ℤ
  sprinzl_label : String
deriving DecidableEq

/-- `build_pref_label` (lines 577-594): the stripped `sprinzl_label`. -/
def build_pref_label_row (r : VRow) : String := pyStrip r.sprinzl_label

/-- The distinct non-null `global_index` values, in the ascending order
`df.groupby("global_index")` iterates them. -/
def gi_values (df : List VRow) : List ℤ :=
  List.insertionSort (· ≤ ·) ((df.filterMap (fun r => r.global_index)).dedup)

/-- The distinct non-empty preferred labels of one `global_index` group. -/
def group_labels (df : List VRow) (g : ℤ) : List String :=
  (((df.filter (fun r => r.global_index == some g)).map build_pref_label_row).dedup).filter
    (fun l => decide (l ≠ ""))

/-- The groups reported as collisions: more than one distinct label. -/
def collision_groups (df : List VRow) : List ℤ :=
  (gi_values df).filter (fun g => decide (1 < (group_labels df g).length))

/-- `validate_no_global_index_collisions`: `sys.exit(1)` (modelled as
`Except.error` carrying the colliding indices) iff a collision exists. -/
def validate_no_global_index_collisions (df : List VRow) : Except (List ℤ) Unit :=
  if collision_groups df = [] then Except.ok () else Except.error (collision_groups df)

/-- A row of the annotated copy `df_with_pref` (the copy plus the
`pref_label` column added inside the validator). -/
structure PRow where
  row : VRow
  pref_label : String

/-- `df.copy()`: a value copy of the table. -/
def copy_df (df : List VRow) : List VRow := df

/-- `df_with_pref["pref_label"] = pref_labels`: attach the column. -/
def set_pref_column (df : List VRow) (pref : List String) : List PRow :=
  (df.zip pref).map (fun p => ⟨p.1, p.2⟩)

/-- Group labels read from the annotated copy's `pref_label` column. -/
def group_labels_pref (df2 : List PRow) (g : ℤ) : List String :=
  (((df2.filter (fun r => r.row.global_index == some g)).map (fun r => r.pref_label)).dedup).filter
    (fun l => decide (l ≠ ""))

/-- Collision groups computed from the annotated copy. -/
def collision_groups_pref (df2 : List PRow) : List ℤ :=
  (List.insertionSort (· ≤ ·) ((df2.filterMap (fun r => r.row.global_index)).dedup)).filter
    (fun g => decide (1 < (group_labels_pref df2 g).length))

/-- The validator body with its frame made explicit: build the preferred
labels, copy the argument, annotate the copy, decide on the copy, and hand
back the caller's table binding together with the verdict. -/
def validate_with_frame (df : List VRow) : List VRow × Except (List ℤ) Unit :=
  let pref := df.map build_pref_label_row
  let df_with_pref := set_pref_column (copy_df df) pref
  let result :=
    if collision_groups_pref df_with_pref = [] then Except.ok ()
    else Except.error (collision_groups_pref df_with_pref)
  (df, result)

/-! ## Helper lemmas -/

theorem charListLt_nil_right : ∀ l : List Char, charListLt l [] = false := by
  intro l
  cases l <;> rfl

/-- Exhaustive description of the branches of `sort_key`. -/
theorem sort_key_cases (lbl : String) :
    sort_key lbl = (1000000000, 2, "") ∨
    ((parseE (normalize_label lbl)).isSome = true ∧
      ∃ r, sort_key lbl = (45, 2, pad3 r)) ∨
    ((parseE (normalize_label lbl)).isSome = true ∧
      sort_key lbl = (45, 3, normalize_label lbl)) ∨
    (∃ b suf, sort_key lbl = (b, if suf = "" then 0 else 1, upperStr suf)) ∨
    (∃ b f, sort_key lbl = (b, 1, pad3 f)) ∨
    sort_key lbl = (999999999, 2, normalize_label lbl) := by
  by_cases h0 : normalize_label lbl = ""
  · exact Or.inl (by simp [sort_key, h0])
  · cases hE : parseE (normalize_label lbl) with
    | some n =>
      cases hL : listIdx (normalize_label lbl) E_POSITION_BIOLOGICAL_ORDER with
      | some r =>
        exact Or.inr (Or.inl ⟨by simp [hE], r, by simp [sort_key, h0, hE, hL]⟩)
      | none =>
        exact Or.inr (Or.inr (Or.inl ⟨by simp [hE], by simp [sort_key, h0, hE, hL]⟩))
    | none =>
      cases hN : parseNumSuf (normalize_label lbl) with
      | some p =>
        exact Or.inr (Or.inr (Or.inr (Or.inl
          ⟨p.1, p.2, by simp [sort_key, h0, hE, hN]⟩)))
      | none =>
        cases hD : parseDotted (normalize_label lbl) with
        | some q =>
          exact Or.inr (Or.inr (Or.inr (Or.inr (Or.inl
            ⟨q.1, q.2, by simp [sort_key, h0, hE, hN, hD]⟩))))
        | none =>
          exact Or.inr (Or.inr (Or.inr (Or.inr (Or.inr
            (by simp [sort_key, h0, hE, hN, hD])))))

theorem sort_key_empty : sort_key "" = (1000000000, 2, "") := by decide

theorem sort_key_46 : sort_key "46" = (46, 0, "") := by decide

theorem sort_key_e11 : sort_key "e11" = (45, 2, "000") := by decide

/-- The key of the unknown bucket of `sort_key`. -/
theorem sort_key_unparseable {lbl : String} (h0 : normalize_label lbl ≠ "")
    (hE : parseE (normalize_label lbl) = none)
    (hN : parseNumSuf (normalize_label lbl) = none)
    (hD : parseDotted (normalize_label lbl) = none) :
    sort_key lbl = (999999999, 2, normalize_label lbl) := by
  simp [sort_key, h0, hE, hN, hD]

/-- The key of an e-form label that is not in the biological order table. -/
theorem sort_key_e_unknown {lbl : String}
    (hE : (parseE (normalize_label lbl)).isSome = true)
    (hL : listIdx (normalize_label lbl) E_POSITION_BIOLOGICAL_ORDER = none) :
    sort_key lbl = (45, 3, normalize_label lbl) := by
  obtain ⟨n, hn⟩ := Option.isSome_iff_exists.mp hE
  have h0 : normalize_label lbl ≠ "" := by
    intro h
    rw [h] at hn
    simp [parseE] at hn
  simp [sort_key, h0, hn, hL]

/-! ### Claim C3 -/

/-- C3 (code bug): the claim demands that every branch of the key function
return a structurally homogeneous tuple so that comparing any two keys never
fails. The comparator of `trnas_in_space.py` satisfies this (its key order
even sorts every permutation of the spec's eight labels to the one canonical
order, last conjunct), but `make_sprinzl_continuous.py`'s `sort_key` returns
an `int` third field for the dotted label `"9.1"` and a `str` third field
for `"9A"`, so Python 3 comparison of those keys raises `TypeError`: the
keys are not comparable. -/
theorem C3_mixed_type_comparator_keys :
    msc_sort_key "9.1" = (9, 1, Sum.inl 1) ∧
    msc_sort_key "9A" = (9, 1, Sum.inr "A") ∧
    mkey_comparable (msc_sort_key "9.1") (msc_sort_key "9A") = false ∧
    (∀ l : List String, l.Perm ["44", "45", "e11", "e12", "e1", "e2", "e24", "46"] →
      List.insertionSort label_le l = ["44", "45", "e11", "e12", "e1", "e2", "e24", "46"]) := by
  refine ⟨by decide, by decide, by decide, ?_⟩
  intro l hperm
  have hsortedc : List.Pairwise label_le ["44", "45", "e11", "e12", "e1", "e2", "e24", "46"] := by
    decide
  have hinjc : ∀ a ∈ ["44", "45", "e11", "e12", "e1", "e2", "e24", "46"],
      ∀ b ∈ ["44", "45", "e11", "e12", "e1", "e2", "e24", "46"],
      sort_key a = sort_key b → a = b := by decide
  refine eq_of_perm_sorted_of_key_inj _ _ ((List.perm_insertionSort label_le l).trans hperm)
    (List.sorted_insertionSort label_le l) hsortedc ?_
  intro a ha b hb
  exact hinjc a (hperm.mem_iff.mp ((List.perm_insertionSort label_le l).mem_iff.mp ha))
    b (hperm.mem_iff.mp ((List.perm_insertionSort label_le l).mem_iff.mp hb))

/-! ### Claim C4 -/

/-- C4: the reserved extended-arm labels sort as one contiguous block
strictly after `"45"` (and after its suffixed variants such as `"45A"`) and
strictly before `"46"`, in the fixed biological traversal order
e11<e12<e13<e14<e15<e16<e17<e18<e19<e20<e1<e2<e3<e4<e5<e6<e7<e8<e9<e10<e27<
e26<e25<e24<e23<e22<e21; an e-form label outside the known table still gets
a deterministic key at the tail of the block, before `"46"`; and every label
at or above the block minimum `"e11"` and strictly below `"46"` is an e-form
label (contiguity). -/
theorem C4_extended_arm_block :
    E_POSITION_BIOLOGICAL_ORDER =
      ["e11", "e12", "e13", "e14", "e15", "e16", "e17", "e18", "e19", "e20",
       "e1", "e2", "e3", "e4", "e5", "e6", "e7", "e8", "e9", "e10",
       "e27", "e26", "e25", "e24", "e23", "e22", "e21"] ∧
    List.Pairwise (fun a b => keyLt (sort_key a) (sort_key b)) E_POSITION_BIOLOGICAL_ORDER ∧
    (∀ e ∈ E_POSITION_BIOLOGICAL_ORDER,
      keyLt (sort_key "45") (sort_key e) ∧ keyLt (sort_key "45A") (sort_key e) ∧
      keyLt (sort_key e) (sort_key "46")) ∧
    (∀ s : String, (parseE (normalize_label s)).isSome = true →
      listIdx (normalize_label s) E_POSITION_BIOLOGICAL_ORDER = none →
      sort_key s = (45, 3, normalize_label s) ∧
      (∀ e ∈ E_POSITION_BIOLOGICAL_ORDER, keyLt (sort_key e) (sort_key s)) ∧
      keyLt (sort_key s) (sort_key "46")) ∧
    (∀ s : String, ¬ keyLt (sort_key s) (sort_key "e11") →
      keyLt (sort_key s) (sort_key "46") →
      (parseE (normalize_label s)).isSome = true) := by
  refine ⟨rfl, by decide, by decide, ?_, ?_⟩
  · intro s hE hL
    have hs := sort_key_e_unknown hE hL
    have efacts : ∀ e ∈ E_POSITION_BIOLOGICAL_ORDER,
        (sort_key e).1 = 45 ∧ (sort_key e).2.1 = 2 := by decide
    refine ⟨hs, ?_, ?_⟩
    · intro e he
      have h1 := (efacts e he).1
      have h2 := (efacts e he).2
      rw [hs]
      exact Or.inr ⟨h1, Or.inl (by rw [h2]; norm_num)⟩
    · rw [hs, sort_key_46]
      exact Or.inl (by norm_num)
  · intro s hmin h46
    rcases sort_key_cases s with h | ⟨hE, _⟩ | ⟨hE, _⟩ | ⟨b, suf, h⟩ | ⟨b, f, h⟩ | h
    · rw [h, sort_key_46] at h46
      rcases h46 with h46 | ⟨e, _⟩
      · norm_num at h46
      · norm_num at e
    · exact hE
    · exact hE
    · rw [h, sort_key_e11] at hmin
      rw [h, sort_key_46] at h46
      exfalso
      apply hmin
      rcases h46 with h46 | ⟨e, h46'⟩
      · -- b < 46 : b could still be ≥ 46? no, this says b < 46, so b ≤ 45
        rcases Nat.lt_or_ge b 45 with hb | hb
        · exact Or.inl hb
        · have : b = 45 := by omega
          subst this
          refine Or.inr ⟨rfl, Or.inl ?_⟩
          by_cases hsuf : suf = "" <;> simp [hsuf]
      · rcases h46' with h46' | ⟨_, hc⟩
        · exfalso
          revert h46'
          by_cases hsuf : suf = "" <;> simp [hsuf]
        · rw [show ("" : String).data = ([] : List Char) from rfl, charListLt_nil_right] at hc
          exact absurd hc (by simp)
    · rw [h, sort_key_e11] at hmin
      rw [h, sort_key_46] at h46
      exfalso
      apply hmin
      rcases h46 with h46 | ⟨e, h46'⟩
      · rcases Nat.lt_or_ge b 45 with hb | hb
        · exact Or.inl hb
        · have : b = 45 := by omega
          subst this
          exact Or.inr ⟨rfl, Or.inl (by norm_num)⟩
      · rcases h46' with h46' | ⟨_, hc⟩
        · norm_num at h46'
        · rw [show ("" : String).data = ([] : List Char) from rfl, charListLt_nil_right] at hc
          exact absurd hc (by simp)
    · rw [h, sort_key_46] at h46
      rcases h46 with h46 | ⟨e, _⟩
      · norm_num at h46
      · norm_num at e

/-- C4 witness: the unknown e-form label `"e99"` lands after the whole known
block and before `"46"`, and `"46"` itself is recognised as non-e. -/
theorem C4_extended_arm_block_witness :
    (sort_key "e99" = (45, 3, "e99") ∧
      (∀ e ∈ E_POSITION_BIOLOGICAL_ORDER, keyLt (sort_key e) (sort_key "e99")) ∧
      keyLt (sort_key "e99") (sort_key "46")) ∧
    (parseE (normalize_label "e5")).isSome = true := by
  constructor
  · have h := C4_extended_arm_block.2.2.2.1 "e99" (by decide) (by decide)
    exact h
  · exact C4_extended_arm_block.2.2.2.2 "e5" (by decide) (by decide)

/-! ### Claim C9 -/

/-- C9 counterexample: the claim says every unparseable non-empty label
sorts strictly after every parseable label, and that the empty label has the
strictly greatest key. But the numeric label `"1000000001"` is parseable
(numeric branch), yet the unparseable label `"zz!"` and even the empty label
sort strictly before it. -/
theorem C9_counterexample :
    parseNumSuf (normalize_label "1000000001") = some (1000000001, "") ∧
    normalize_label "zz!" ≠ "" ∧
    parseE (normalize_label "zz!") = none ∧
    parseNumSuf (normalize_label "zz!") = none ∧
    parseDotted (normalize_label "zz!") = none ∧
    keyLt (sort_key "zz!") (sort_key "1000000001") ∧
    keyLt (sort_key "") (sort_key "1000000001") := by decide

/-- C9 (amended): `sort_key` is a total function on all label strings (the
embedding is a total Lean function: no input can raise). Every unparseable
non-empty label is mapped to the deterministic unknown bucket
`(999999999, 2, normalized label)`, which sorts strictly before the
empty-label sentinel; and every label whose key base lies below the
unknown-bucket sentinel `999999999` — in particular every parseable label
whose numeric part is at most `999999998`, and every e-form label — sorts
strictly before every unparseable label and strictly before the empty
label. (The restriction on the numeric part is forced by
`C9_counterexample`: the sentinels are finite, not `+∞`.) -/
theorem C9_unknown_bucket_order :
    (∀ s : String, normalize_label s ≠ "" →
      parseE (normalize_label s) = none →
      parseNumSuf (normalize_label s) = none →
      parseDotted (normalize_label s) = none →
      sort_key s = (999999999, 2, normalize_label s) ∧
      keyLt (sort_key s) (sort_key "")) ∧
    (∀ s t : String, (sort_key s).1 < 999999999 →
      normalize_label t ≠ "" →
      parseE (normalize_label t) = none →
      parseNumSuf (normalize_label t) = none →
      parseDotted (normalize_label t) = none →
      keyLt (sort_key s) (sort_key t) ∧ keyLt (sort_key s) (sort_key "")) := by
  constructor
  · intro s h0 hE hN hD
    refine ⟨sort_key_unparseable h0 hE hN hD, ?_⟩
    rw [sort_key_unparseable h0 hE hN hD, sort_key_empty]
    exact Or.inl (by norm_num)
  · intro s t hbase h0 hE hN hD
    constructor
    · rw [sort_key_unparseable h0 hE hN hD]
      exact Or.inl hbase
    · rw [sort_key_empty]
      exact Or.inl (by omega)

/-- C9 witness: the unparseable label `"x?y"` sits in the unknown bucket
before the empty label, and the parseable label `"33"` sorts before it. -/
theorem C9_unknown_bucket_order_witness :
    (sort_key "x?y" = (999999999, 2, "x?y") ∧ keyLt (sort_key "x?y") (sort_key "")) ∧
    (keyLt (sort_key "33") (sort_key "x?y") ∧ keyLt (sort_key "33") (sort_key "")) := by
  constructor
  · exact C9_unknown_bucket_order.1 "x?y" (by decide) (by decide) (by decide) (by decide)
  · exact C9_unknown_bucket_order.2 "33" "x?y" (by decide) (by decide) (by decide)
      (by decide) (by decide)

/-! ### Claim C1 -/

theorem two_mem_of_one_lt_length {α : Type} {l : List α} (hn : l.Nodup)
    (h : 1 < l.length) : ∃ a ∈ l, ∃ b ∈ l, a ≠ b := by
  cases l with
  | nil => simp at h
  | cons a t =>
    cases t with
    | nil => simp at h
    | cons b t' =>
      refine ⟨a, by simp, b, by simp, ?_⟩
      intro e
      subst e
      exact (List.nodup_cons.mp hn).1 (by simp)

theorem one_lt_length_of_two_mem {α : Type} {l : List α} {a b : α}
    (ha : a ∈ l) (hb : b ∈ l) (hne : a ≠ b) : 1 < l.length := by
  cases l with
  | nil => simp at ha
  | cons x t =>
    cases t with
    | nil =>
      simp at ha hb
      exact absurd (ha.trans hb.symm) hne
    | cons y t' => simp

/-- A collision in the sense of the claim: one non-null global index claimed
by two distinct non-empty preferred labels. -/
theorem group_labels_one_lt_iff (df : List VRow) (g : ℤ) :
    1 < (group_labels df g).length ↔
      ∃ r1 ∈ df, ∃ r2 ∈ df,
        r1.global_index = some g ∧ r2.global_index = some g ∧
        build_pref_label_row r1 ≠ "" ∧ build_pref_label_row r2 ≠ "" ∧
        build_pref_label_row r1 ≠ build_pref_label_row r2 := by
  constructor
  · intro h
    have hnd : (group_labels df g).Nodup :=
      List.Nodup.filter _ (List.nodup_dedup _)
    obtain ⟨a, ha, b, hb, hab⟩ := two_mem_of_one_lt_length hnd h
    have hmem : ∀ x ∈ group_labels df g,
        x ≠ "" ∧ ∃ r ∈ df, r.global_index = some g ∧ build_pref_label_row r = x := by
      intro x hx
      obtain ⟨hx', hxe⟩ := List.mem_filter.mp hx
      refine ⟨by simpa using hxe, ?_⟩
      obtain ⟨r, hr, hrx⟩ := List.mem_map.mp (List.mem_dedup.mp hx')
      obtain ⟨hrdf, hrg⟩ := List.mem_filter.mp hr
      exact ⟨r, hrdf, by simpa using hrg, hrx⟩
    obtain ⟨hane, r1, hr1, hg1, hp1⟩ := hmem a ha
    obtain ⟨hbne, r2, hr2, hg2, hp2⟩ := hmem b hb
    exact ⟨r1, hr1, r2, hr2, hg1, hg2, hp1.symm ▸ hane, hp2.symm ▸ hbne,
      by rw [hp1, hp2]; exact hab⟩
  · rintro ⟨r1, hr1, r2, hr2, hg1, hg2, hne1, hne2, hne⟩
    have hmem : ∀ r ∈ df, r.global_index = some g → build_pref_label_row r ≠ "" →
        build_pref_label_row r ∈ group_labels df g := by
      intro r hr hg hne'
      refine List.mem_filter.mpr ⟨List.mem_dedup.mpr ?_, by simpa using hne'⟩
      exact List.mem_map.mpr ⟨r, List.mem_filter.mpr ⟨hr, by simp [hg]⟩, rfl⟩
    exact one_lt_length_of_two_mem (hmem r1 hr1 hg1 hne1) (hmem r2 hr2 hg2 hne2) hne

/-- C1: the collision validator aborts (`sys.exit(1)`, modelled as
`Except.error`) iff some non-null `global_index` is shared by rows carrying
two distinct non-empty (stripped) structural labels, and returns normally
otherwise; in particular a batch with rows `(global_index=2, "47")` and
`(global_index=2, "e1")` fails, and a batch with no index claimed by two
distinct labels passes. -/
theorem C1_collision_validator :
    (∀ df : List VRow,
      validate_no_global_index_collisions df = Except.ok () ↔
        ¬ ∃ g : ℤ, ∃ r1 ∈ df, ∃ r2 ∈ df,
          r1.global_index = some g ∧ r2.global_index = some g ∧
          build_pref_label_row r1 ≠ "" ∧ build_pref_label_row r2 ≠ "" ∧
          build_pref_label_row r1 ≠ build_pref_label_row r2) ∧
    validate_no_global_index_collisions
      [⟨"tRNA-A", some 2, "47"⟩, ⟨"tRNA-B", some 2, "e1"⟩] = Except.error [2] ∧
    validate_no_global_index_collisions
      [⟨"tRNA-A", some 1, "47"⟩, ⟨"tRNA-A", some 2, "48"⟩, ⟨"tRNA-B", some 2, "48"⟩,
       ⟨"tRNA-B", some 3, ""⟩, ⟨"tRNA-C", some 3, "49"⟩] = Except.ok () := by
  refine ⟨?_, by rfl, by rfl⟩
  intro df
  have hok : validate_no_global_index_collisions df = Except.ok () ↔
      collision_groups df = [] := by
    unfold validate_no_global_index_collisions
    by_cases h : collision_groups df = [] <;> simp [h]
  rw [hok]
  unfold collision_groups
  rw [List.filter_eq_nil_iff]
  constructor
  · intro hall ⟨g, hcol⟩
    have hg : g ∈ gi_values df := by
      obtain ⟨r1, hr1, _, _, hg1, _⟩ := hcol
      unfold gi_values
      rw [(List.perm_insertionSort _ _).mem_iff, List.mem_dedup, List.mem_filterMap]
      exact ⟨r1, hr1, hg1⟩
    have := hall g hg
    simp only [decide_eq_true_eq] at this
    rw [group_labels_one_lt_iff df g] at this
    exact this hcol
  · intro hne g _ hp
    simp only [decide_eq_true_eq] at hp
    exact hne ⟨g, (group_labels_one_lt_iff df g).mp hp⟩

/-! ### Claim C10 -/

theorem set_pref_map (df : List VRow) :
    set_pref_column (copy_df df) (df.map build_pref_label_row) =
      df.map (fun r => ⟨r, build_pref_label_row r⟩) := by
  induction df with
  | nil => rfl
  | cons r t ih =>
    simp only [copy_df, set_pref_column, List.map_cons, List.zip_cons_cons,
      List.map, List.zip_eq_zipWith] at ih ⊢
    rw [ih]

theorem group_labels_pref_map (df : List VRow) (g : ℤ) :
    group_labels_pref (df.map (fun r => ⟨r, build_pref_label_row r⟩)) g =
      group_labels df g := by
  unfold group_labels_pref group_labels
  rw [List.filter_map, List.map_map]
  rfl

/-- C10: the collision validator does not mutate its argument — the body
annotates only a copy, and the verdict computed from the annotated copy's
`pref_label` column agrees with the verdict on the original table. -/
theorem C10_validator_frame (df : List VRow) :
    (validate_with_frame df).1 = df ∧
    (validate_with_frame df).2 = validate_no_global_index_collisions df := by
  refine ⟨rfl, ?_⟩
  show (if collision_groups_pref (set_pref_column (copy_df df)
      (df.map build_pref_label_row)) = [] then Except.ok ()
    else Except.error (collision_groups_pref (set_pref_column (copy_df df)
      (df.map build_pref_label_row)))) = validate_no_global_index_collisions df
  have hcg : collision_groups_pref (set_pref_column (copy_df df)
      (df.map build_pref_label_row)) = collision_groups df := by
    rw [set_pref_map]
    unfold collision_groups_pref collision_groups gi_values
    rw [List.filterMap_map]
    simp only [group_labels_pref_map]
    rfl
  rw [hcg]
  rfl

/-! ### Claim C5 -/

theorem get?_zipWith {α β γ : Type} (f : α → β → γ) :
    ∀ (l₁ : List α) (l₂ : List β) (i : ℕ),
      (List.zipWith f l₁ l₂).get? i =
        match l₁.get? i, l₂.get? i with
        | some a, some b => some (f a b)
        | _, _ => none := by
  intro l₁
  induction l₁ with
  | nil => intro l₂ i; cases l₂ <;> cases i <;> rfl
  | cons a t ih =>
    intro l₂ i
    cases l₂ with
    | nil =>
      cases i with
      | zero => rfl
      | succ n => cases h : t.get? n <;> simp [List.get?_cons_succ, h]
    | cons b t' => cases i with
      | zero => rfl
      | succ j => simpa using ih t' j

theorem fwdAux_length : ∀ (last : Option ℤ) (vals : List ℤ),
    (fwdAux last vals).length = vals.length := by
  intro last vals
  induction vals generalizing last with
  | nil => rfl
  | cons v rest ih =>
    by_cases h : 1 ≤ v
    · simp [fwdAux, h, ih]
    · cases last <;> simp [fwdAux, h, ih]

theorem bwdAux_length : ∀ (nxt : Option ℤ) (vals : List ℤ),
    (bwdAux nxt vals).length = vals.length := by
  intro nxt vals
  induction vals generalizing nxt with
  | nil => rfl
  | cons v rest ih =>
    by_cases h : 1 ≤ v
    · simp [bwdAux, h, ih]
    · cases nxt <;> simp [bwdAux, h, ih]

theorem fwd_pass_length (vals : List ℤ) : (fwd_pass vals).length = vals.length :=
  fwdAux_length none vals

theorem bwd_pass_length (vals : List ℤ) : (bwd_pass vals).length = vals.length := by
  unfold bwd_pass
  rw [List.length_reverse, bwdAux_length, List.length_reverse]

theorem gap_fill_get? (vals : List ℤ) (i : ℕ) (v : ℤ) (f b : Option ℤ)
    (hv : vals.get? i = some v) (hf : (fwd_pass vals).get? i = some f)
    (hb : (bwd_pass vals).get? i = some b) :
    (gap_fill vals).get? i = some (resolve_index v f b) := by
  unfold gap_fill
  rw [get?_zipWith, List.zip_eq_zipWith, get?_zipWith, hv, hf, hb]

/-- C5: gap-fill keeps every annotator-supplied index `≥ 1` unchanged; for
every other row it takes the value on which the forward and backward passes
agree provided it lies in `1..76`, takes the one-sided value when only that
pass is defined and in range, and otherwise writes the explicit `-1`
sentinel; on indices `[1, -1, -1, 4]` it produces `[1, 2, 3, 4]`. -/
theorem C5_gap_fill :
    gap_fill [1, -1, -1, 4] = [1, 2, 3, 4] ∧
    ∀ (vals : List ℤ) (i : ℕ) (v : ℤ), vals.get? i = some v →
      (gap_fill vals).length = vals.length ∧
      (1 ≤ v → (gap_fill vals).get? i = some v) ∧
      (¬ 1 ≤ v →
        (∀ x y : ℤ, (fwd_pass vals).get? i = some (some x) →
          (bwd_pass vals).get? i = some (some y) →
          (gap_fill vals).get? i = some (if x = y ∧ 1 ≤ x ∧ x ≤ 76 then x else -1)) ∧
        (∀ x : ℤ, (fwd_pass vals).get? i = some (some x) →
          (bwd_pass vals).get? i = some none →
          (gap_fill vals).get? i = some (if 1 ≤ x ∧ x ≤ 76 then x else -1)) ∧
        (∀ y : ℤ, (fwd_pass vals).get? i = some none →
          (bwd_pass vals).get? i = some (some y) →
          (gap_fill vals).get? i = some (if 1 ≤ y ∧ y ≤ 76 then y else -1)) ∧
        ((fwd_pass vals).get? i = some none → (bwd_pass vals).get? i = some none →
          (gap_fill vals).get? i = some (-1))) := by
  refine ⟨by decide, ?_⟩
  intro vals i v hv
  have hi : i < vals.length := (List.get?_eq_some.mp hv).1
  have hlen : (gap_fill vals).length = vals.length := by
    unfold gap_fill
    rw [List.length_zipWith, List.length_zip, fwd_pass_length, bwd_pass_length]
    omega
  refine ⟨hlen, ?_, ?_⟩
  · intro hv1
    cases hf : (fwd_pass vals).get? i with
    | none =>
      rw [List.get?_eq_none] at hf
      rw [fwd_pass_length] at hf
      omega
    | some f =>
      cases hb : (bwd_pass vals).get? i with
      | none =>
        rw [List.get?_eq_none] at hb
        rw [bwd_pass_length] at hb
        omega
      | some b =>
        rw [gap_fill_get? vals i v f b hv hf hb]
        simp [resolve_index, hv1]
  · intro hv0
    refine ⟨?_, ?_, ?_, ?_⟩
    · intro x y hf hb
      rw [gap_fill_get? vals i v (some x) (some y) hv hf hb]
      simp [resolve_index, hv0]
    · intro x hf hb
      rw [gap_fill_get? vals i v (some x) none hv hf hb]
      simp [resolve_index, hv0]
    · intro y hf hb
      rw [gap_fill_get? vals i v none (some y) hv hf hb]
      simp [resolve_index, hv0]
    · intro hf hb
      rw [gap_fill_get? vals i v none none hv hf hb]
      simp [resolve_index, hv0]

/-- C5 witness: on `[1, -1, -1, 4]` the two passes agree on `2` at position
1, which is in range, so the row receives `2`. -/
theorem C5_gap_fill_witness :
    (gap_fill [1, -1, -1, 4]).get? 1 =
      some (if (2 : ℤ) = 2 ∧ 1 ≤ (2 : ℤ) ∧ (2 : ℤ) ≤ 76 then 2 else -1) :=
  (((C5_gap_fill.2 [1, -1, -1, 4] 1 (-1) (by decide)).2.2 (by decide)).1 2 2
    (by decide) (by decide))

/-! ### Interpolation lemmas (claims C2 and C6) -/

theorem fillRun_zero (a b : Option ℕ) : fillRun a b 0 = [] := by
  cases a <;> cases b <;> simp [fillRun]

theorem mc_go_replicate : ∀ (k : ℕ) (prev : Option ℕ) (pending : ℕ)
    (rest : List (Option ℕ)),
    mc_go prev pending (List.replicate k none ++ rest) = mc_go prev (pending + k) rest := by
  intro k
  induction k with
  | zero => intro prev pending rest; rfl
  | succ n ih =>
    intro prev pending rest
    rw [List.replicate_succ, List.cons_append]
    show mc_go prev (pending + 1) (List.replicate n none ++ rest) = _
    rw [ih]
    congr 1
    omega

theorem mc_go_append_labeled : ∀ (pre : List (Option ℕ)) (prev : Option ℕ)
    (pending : ℕ) (L : ℕ) (rest : List (Option ℕ)),
    mc_go prev pending (pre ++ some L :: rest) =
      mc_go prev pending (pre ++ [some L]) ++ mc_go (some L) 0 rest := by
  intro pre
  induction pre with
  | nil =>
    intro prev pending L rest
    simp [mc_go, fillRun_zero]
  | cons a pre' ih =>
    intro prev pending L rest
    cases a with
    | some o =>
      rw [List.cons_append, List.cons_append]
      show fillRun prev (some o) pending ++
          some (o : ℚ) :: mc_go (some o) 0 (pre' ++ some L :: rest) =
        (fillRun prev (some o) pending ++
          some (o : ℚ) :: mc_go (some o) 0 (pre' ++ [some L])) ++ mc_go (some L) 0 rest
      rw [ih]
      simp [List.append_assoc]
    | none =>
      rw [List.cons_append, List.cons_append]
      show mc_go prev (pending + 1) (pre' ++ some L :: rest) = _
      rw [ih]
      rfl

theorem filterMap_id_map_some {α : Type} (f : ℕ → α) (l : List ℕ) :
    (l.map (fun t => some (f t))).filterMap id = l.map f := by
  induction l with
  | nil => rfl
  | cons a t ih => simp [ih]

theorem chain_lt_map_range {f : ℕ → ℚ} (k : ℕ)
    (h : ∀ t, t + 1 < k → f t < f (t + 1)) :
    List.Chain' (· < ·) ((List.range k).map f) := by
  cases k with
  | zero => simp
  | succ n =>
    rw [List.chain'_map]
    exact (List.chain'_range_succ _ n).mpr (fun m hm => h m (by omega))

theorem mem_map_range {f : ℕ → ℚ} {k : ℕ} {q : ℚ}
    (hq : q ∈ (List.range k).map f) : ∃ t, t < k ∧ q = f t := by
  obtain ⟨t, ht, rfl⟩ := List.mem_map.mp hq
  exact ⟨t, List.mem_range.mp ht, rfl⟩

/-- The invariant of the interpolation loop: if the defined ordinals are
strictly increasing along the molecule and every one of them exceeds the
ordinal of the last labeled row already consumed, then the defined output
coordinates are strictly increasing and all exceed that ordinal. -/
theorem mc_go_chain : ∀ (l : List (Option ℕ)) (prev : Option ℕ) (pending : ℕ),
    List.Chain' (· < ·) (l.filterMap id) →
    (∀ p : ℕ, prev = some p → ∀ o, (l.filterMap id).head? = some o → p < o) →
    List.Chain' (· < ·) ((mc_go prev pending l).filterMap id) ∧
    (∀ p : ℕ, prev = some p → ∀ q ∈ (mc_go prev pending l).filterMap id, (p : ℚ) < q) := by
  intro l
  induction l with
  | nil =>
    intro prev pending _ _
    cases prev with
    | none =>
      constructor
      · show List.Chain' (· < ·) ((fillRun none none pending).filterMap id)
        simp [fillRun]
      · intro p hp
        simp at hp
    | some p =>
      have hfm : (mc_go (some p) pending ([] : List (Option ℕ))).filterMap id =
          (List.range pending).map
            (fun t : ℕ => (p : ℚ) + ((t : ℚ) + 1) / ((pending : ℚ) + 1)) := by
        show (fillRun (some p) none pending).filterMap id = _
        simp only [fillRun]
        rw [filterMap_id_map_some]
      constructor
      · rw [hfm]
        refine chain_lt_map_range pending (fun t ht => ?_)
        have hpos : (0 : ℚ) < (pending : ℚ) + 1 := by positivity
        have : ((t : ℚ) + 1) / ((pending : ℚ) + 1) <
            ((t : ℚ) + 1 + 1) / ((pending : ℚ) + 1) :=
          div_lt_div_of_pos_right (by linarith) hpos
        push_cast
        linarith
      · intro p' hp' q hq
        injection hp' with hp'
        subst hp'
        rw [hfm] at hq
        obtain ⟨t, _, rfl⟩ := mem_map_range hq
        have : (0 : ℚ) < ((t : ℚ) + 1) / ((pending : ℚ) + 1) := by positivity
        linarith
  | cons a rest ih =>
    intro prev pending h1 h2
    cases a with
    | none =>
      have h1' : List.Chain' (· < ·) (rest.filterMap id) := by
        simpa using h1
      have h2' : ∀ p : ℕ, prev = some p → ∀ o, (rest.filterMap id).head? = some o → p < o := by
        intro p hp o ho
        exact h2 p hp o (by simpa using ho)
      exact ih prev (pending + 1) h1' h2'
    | some o =>
      have h1c : List.Chain' (· < ·) (o :: rest.filterMap id) := by simpa using h1
      have hhead := (List.chain'_cons'.mp h1c).1
      have htail := (List.chain'_cons'.mp h1c).2
      obtain ⟨hB, hBgt⟩ := ih (some o) 0 htail
        (fun p hp o' ho' => by injection hp with hp; subst hp; exact hhead o' ho')
      have hBgto := hBgt o rfl
      -- the output and its defined part
      have hout : (mc_go prev pending (some o :: rest)).filterMap id =
          (fillRun prev (some o) pending).filterMap id ++
            (o : ℚ) :: (mc_go (some o) 0 rest).filterMap id := by
        simp [mc_go, List.filterMap_append]
      -- facts about the fill segment
      have hfill : List.Chain' (· < ·) ((fillRun prev (some o) pending).filterMap id) ∧
          (∀ q ∈ (fillRun prev (some o) pending).filterMap id,
            q < (o : ℚ) ∧ (∀ p : ℕ, prev = some p → (p : ℚ) < q)) := by
        cases prev with
        | none =>
          simp only [fillRun]
          rw [filterMap_id_map_some]
          constructor
          · refine chain_lt_map_range pending (fun t ht => ?_)
            have hpos : (0 : ℚ) < (pending : ℚ) + 1 := by positivity
            have : ((pending : ℚ) - ((t : ℚ) + 1)) / (pending + 1) <
                ((pending : ℚ) - t) / (pending + 1) :=
              div_lt_div_of_pos_right (by linarith) hpos
            push_cast
            linarith
          · intro q hq
            obtain ⟨t, ht, rfl⟩ := mem_map_range hq
            have htp : (t : ℚ) < pending := by exact_mod_cast ht
            have hpos : (0 : ℚ) < ((pending : ℚ) - t) / (pending + 1) :=
              div_pos (by linarith) (by positivity)
            exact ⟨by linarith, fun p hp => by simp at hp⟩
        | some p =>
          have hpo : p < o := h2 p rfl o (by simp)
          have hbr : p + 1 ≤ o := hpo
          simp only [fillRun, if_pos hbr]
          rw [filterMap_id_map_some]
          constructor
          · refine chain_lt_map_range pending (fun t ht => ?_)
            have hpos : (0 : ℚ) < (pending : ℚ) + 1 := by positivity
            have : ((t : ℚ) + 1) / (pending + 1) < ((t : ℚ) + 1 + 1) / (pending + 1) :=
              div_lt_div_of_pos_right (by linarith) hpos
            push_cast
            linarith
          · intro q hq
            obtain ⟨t, ht, rfl⟩ := mem_map_range hq
            have hdiv1 : ((t : ℚ) + 1) / (pending + 1) < 1 := by
              rw [div_lt_one (by positivity)]
              exact_mod_cast Nat.succ_lt_succ ht
            have hpo' : (p : ℚ) + 1 ≤ (o : ℚ) := by exact_mod_cast hpo
            have hdiv0 : (0 : ℚ) < ((t : ℚ) + 1) / (pending + 1) := by positivity
            refine ⟨by linarith, fun p' hp' => ?_⟩
            injection hp' with hp'
            subst hp'
            linarith
      rw [hout]
      constructor
      · rw [List.chain'_append]
        refine ⟨hfill.1, ?_, ?_⟩
        · exact List.chain'_cons'.mpr
            ⟨fun y hy => hBgto y (List.mem_of_mem_head? hy), hB⟩
        · intro x hx y hy
          have hx' := List.mem_of_mem_getLast? hx
          have hy' : y = (o : ℚ) := by
            have := hy
            simp at this
            exact this.symm
          subst hy'
          exact (hfill.2 x hx').1
      · intro p hp q hq
        have hpo : p < o := h2 p hp o (by simp)
        have hpoq : (p : ℚ) < (o : ℚ) := by exact_mod_cast hpo
        rcases List.mem_append.mp hq with hq | hq
        · exact (hfill.2 q hq).2 p hp
        · rcases List.mem_cons.mp hq with rfl | hq
          · exact hpoq
          · exact lt_trans hpoq (hBgto q hq)

/-! ### Claim C2 -/

/-- C2 counterexample: the claim asserts strict monotonicity for any ordinal
assignment, but labeled rows receive their ordinals verbatim, so assigning
ordinals 5 then 3 to two adjacent labeled rows yields the non-increasing
coordinate sequence `[5, 3]`. -/
theorem C2_counterexample :
    make_continuous [some 5, some 3] = [some ((5 : ℕ) : ℚ), some ((3 : ℕ) : ℚ)] ∧
    ¬ List.Chain' (· < ·) ((make_continuous [some 5, some 3]).filterMap id) := by
  have h : make_continuous [some 5, some 3] = [some ((5 : ℕ) : ℚ), some ((3 : ℕ) : ℚ)] := by
    simp [make_continuous, mc_go, fillRun_zero]
  refine ⟨h, ?_⟩
  rw [h]
  intro hc
  have h53 : (5 : ℚ) < 3 := by simpa using hc
  norm_num at h53

/-- C2 (amended): for every molecule whose labeled rows carry strictly
increasing ordinals in sequence order (the situation the claim's
quantification over "any ordinal assignment" must be restricted to, by
`C2_counterexample`), the continuous-coordinate sequence produced by
`make_continuous_for_trna`, read in sequence order over the rows where a
coordinate is defined, is strictly increasing. -/
theorem C2_interpolation_strictly_increasing (ords : List (Option ℕ))
    (h : List.Chain' (· < ·) (ords.filterMap id)) :
    List.Chain' (· < ·) ((make_continuous ords).filterMap id) :=
  (mc_go_chain ords none 0 h (fun p hp => absurd hp (by simp))).1

/-- C2 witness: a molecule with labeled ordinals 5 and 6 around a 2-residue
gap has strictly increasing defined coordinates. -/
theorem C2_interpolation_strictly_increasing_witness :
    List.Chain' (· < ·) ((make_continuous [some 5, none, none, some 6]).filterMap id) :=
  C2_interpolation_strictly_increasing [some 5, none, none, some 6]
    (by simp [List.filterMap_cons, List.chain'_cons])

/-! ### Claim C6 -/

theorem fillRun_length (a b : Option ℕ) (k : ℕ) : (fillRun a b k).length = k := by
  cases a <;> cases b <;> simp [fillRun]
  split <;> simp

theorem mc_go_get : ∀ (l : List (Option ℕ)) (prev : Option ℕ) (pending i : ℕ) (o : ℕ),
    l.get? i = some (some o) →
    (mc_go prev pending l).get? (pending + i) = some (some (o : ℚ)) := by
  intro l
  induction l with
  | nil => intro prev pending i o h; simp at h
  | cons a rest ih =>
    intro prev pending i o h
    cases a with
    | none =>
      cases i with
      | zero => simp at h
      | succ j =>
        show (mc_go prev (pending + 1) rest).get? (pending + (j + 1)) = _
        have := ih prev (pending + 1) j o (by simpa using h)
        rw [show pending + (j + 1) = pending + 1 + j from by omega]
        exact this
    | some o' =>
      show (fillRun prev (some o') pending ++
        some (o' : ℚ) :: mc_go (some o') 0 rest).get? (pending + i) = _
      rw [List.get?_append_right (by rw [fillRun_length]; omega)]
      rw [fillRun_length]
      cases i with
      | zero =>
        have : o' = o := by simpa using h
        subst this
        simp
      | succ j =>
        rw [show pending + (j + 1) - pending = j + 1 from by omega]
        have := ih (some o') 0 j o (by simpa using h)
        simpa using this

/-- C6: interpolation placement. Labeled rows receive exactly their integer
ordinal; an internal run of `k` unlabeled rows between labeled neighbor
ordinals `L < R` receives `L + t/(k+1)` for `t = 1..k`, strictly between `L`
and `R`; a leading run receives `R - (k-t)/(k+1)` for `t = 0..k-1`, strictly
below `R`; a trailing run receives `L + t/(k+1)` for `t = 1..k`, strictly
above `L`; a molecule with no labeled rows gets no coordinates; and a
2-residue run between ordinals 5 and 6 receives exactly `16/3` and `17/3`. -/
theorem C6_interpolation_placement :
    (∀ (ords : List (Option ℕ)) (i : ℕ) (o : ℕ), ords.get? i = some (some o) →
      (make_continuous ords).get? i = some (some (o : ℚ))) ∧
    (∀ (pre : List (Option ℕ)) (L R k : ℕ) (post : List (Option ℕ)), L < R →
      (make_continuous (pre ++ some L :: (List.replicate k none ++ some R :: post)) =
        make_continuous (pre ++ [some L]) ++
          ((List.range k).map
              (fun t : ℕ => some ((L : ℚ) + ((t : ℚ) + 1) / ((k : ℚ) + 1))) ++
            some (R : ℚ) :: mc_go (some R) 0 post)) ∧
      ∀ q ∈ (List.range k).map (fun t : ℕ => (L : ℚ) + ((t : ℚ) + 1) / ((k : ℚ) + 1)),
        (L : ℚ) < q ∧ q < (R : ℚ)) ∧
    (∀ (R k : ℕ) (post : List (Option ℕ)),
      (make_continuous (List.replicate k none ++ some R :: post) =
        (List.range k).map
            (fun t : ℕ => some ((R : ℚ) - ((k : ℚ) - (t : ℚ)) / ((k : ℚ) + 1))) ++
          some (R : ℚ) :: mc_go (some R) 0 post) ∧
      ∀ q ∈ (List.range k).map (fun t : ℕ => (R : ℚ) - ((k : ℚ) - (t : ℚ)) / ((k : ℚ) + 1)),
        q < (R : ℚ)) ∧
    (∀ (pre : List (Option ℕ)) (L k : ℕ),
      (make_continuous (pre ++ some L :: List.replicate k none) =
        make_continuous (pre ++ [some L]) ++
          (List.range k).map
            (fun t : ℕ => some ((L : ℚ) + ((t : ℚ) + 1) / ((k : ℚ) + 1)))) ∧
      ∀ q ∈ (List.range k).map (fun t : ℕ => (L : ℚ) + ((t : ℚ) + 1) / ((k : ℚ) + 1)),
        (L : ℚ) < q) ∧
    (∀ k : ℕ, make_continuous (List.replicate k none) = List.replicate k none) ∧
    make_continuous [some 5, none, none, some 6] =
      [some 5, some ((16 : ℚ) / 3), some ((17 : ℚ) / 3), some 6] := by
  refine ⟨?_, ?_, ?_, ?_, ?_, ?_⟩
  · intro ords i o h
    have := mc_go_get ords none 0 i o h
    simpa using this
  · intro pre L R k post hLR
    constructor
    · show mc_go none 0 (pre ++ some L :: (List.replicate k none ++ some R :: post)) = _
      rw [mc_go_append_labeled, mc_go_replicate, Nat.zero_add]
      show make_continuous (pre ++ [some L]) ++
        (fillRun (some L) (some R) k ++ some (R : ℚ) :: mc_go (some R) 0 post) = _
      rw [show fillRun (some L) (some R) k = (List.range k).map
        (fun t : ℕ => some ((L : ℚ) + ((t : ℚ) + 1) / ((k : ℚ) + 1))) from by
          simp [fillRun, Nat.succ_le_of_lt hLR]]
    · intro q hq
      obtain ⟨t, ht, rfl⟩ := mem_map_range hq
      have hdiv0 : (0 : ℚ) < ((t : ℚ) + 1) / ((k : ℚ) + 1) := by positivity
      have hdiv1 : ((t : ℚ) + 1) / ((k : ℚ) + 1) < 1 := by
        rw [div_lt_one (by positivity)]
        exact_mod_cast Nat.succ_lt_succ ht
      have hLR' : (L : ℚ) + 1 ≤ (R : ℚ) := by exact_mod_cast Nat.succ_le_of_lt hLR
      exact ⟨by linarith, by linarith⟩
  · intro R k post
    constructor
    · show mc_go none 0 (List.replicate k none ++ some R :: post) = _
      rw [mc_go_replicate, Nat.zero_add]
      show fillRun none (some R) k ++ some (R : ℚ) :: mc_go (some R) 0 post = _
      rfl
    · intro q hq
      obtain ⟨t, ht, rfl⟩ := mem_map_range hq
      have htk : (t : ℚ) < (k : ℚ) := by exact_mod_cast ht
      have : (0 : ℚ) < ((k : ℚ) - (t : ℚ)) / ((k : ℚ) + 1) :=
        div_pos (by linarith) (by positivity)
      linarith
  · intro pre L k
    constructor
    · show mc_go none 0 (pre ++ some L :: List.replicate k none) = _
      rw [mc_go_append_labeled]
      congr 1
      rw [show List.replicate k none = List.replicate k none ++ ([] : List (Option ℕ)) from
        (List.append_nil _).symm, mc_go_replicate, Nat.zero_add]
      show fillRun (some L) none k = _
      rfl
    · intro q hq
      obtain ⟨t, _, rfl⟩ := mem_map_range hq
      have : (0 : ℚ) < ((t : ℚ) + 1) / ((k : ℚ) + 1) := by positivity
      linarith
  · intro k
    show mc_go none 0 (List.replicate k none) = _
    rw [show List.replicate k none = List.replicate k none ++ ([] : List (Option ℕ)) from
      (List.append_nil _).symm, mc_go_replicate, Nat.zero_add]
    show fillRun none none k = _
    simp [fillRun]
  · show mc_go none 0 [some 5, none, none, some 6] = _
    simp only [mc_go, fillRun_zero, List.nil_append]
    rw [show fillRun (some 5) (some 6) 2 =
      (List.range 2).map (fun t : ℕ => some (((5 : ℕ) : ℚ) +
        ((t : ℚ) + 1) / (((2 : ℕ) : ℚ) + 1))) from by simp [fillRun]]
    simp [List.range_succ]
    norm_num

/-- C6 witness: the first interpolated coordinate of a 2-residue internal
run between ordinals 5 and 6 lies strictly between them. -/
theorem C6_interpolation_placement_witness :
    ((5 : ℕ) : ℚ) < ((5 : ℕ) : ℚ) + (((0 : ℕ) : ℚ) + 1) / (((2 : ℕ) : ℚ) + 1) ∧
    ((5 : ℕ) : ℚ) + (((0 : ℕ) : ℚ) + 1) / (((2 : ℕ) : ℚ) + 1) < ((6 : ℕ) : ℚ) :=
  (C6_interpolation_placement.2.1 [] 5 6 2 [] (by decide)).2 _
    (List.mem_map.mpr ⟨0, by simp, rfl⟩)

/-! ### Claim C7 -/

theorem idxQ_lt_length {a : ℚ} : ∀ {l : List ℚ}, a ∈ l → idxQ a l < l.length := by
  intro l h
  induction l with
  | nil => simp at h
  | cons b t ih =>
    by_cases hab : a = b
    · simp [idxQ, hab]
    · have : a ∈ t := (List.mem_cons.mp h).resolve_left hab
      simp only [idxQ, if_neg hab, List.length_cons]
      have := ih this
      omega

theorem idxQ_inj : ∀ {l : List ℚ} {a b : ℚ},
    a ∈ l → b ∈ l → idxQ a l = idxQ b l → a = b := by
  intro l
  induction l with
  | nil => intro a b ha _ _; simp at ha
  | cons c t ih =>
    intro a b ha hb h
    by_cases hac : a = c <;> by_cases hbc : b = c
    · exact hac.trans hbc.symm
    · simp [idxQ, hac, hbc] at h
    · simp [idxQ, hac, hbc] at h
    · simp only [idxQ, if_neg hac, if_neg hbc] at h
      exact ih ((List.mem_cons.mp ha).resolve_left hac)
        ((List.mem_cons.mp hb).resolve_left hbc) (by omega)

theorem idxQ_mono : ∀ {l : List ℚ} {a b : ℚ},
    List.Pairwise (· < ·) l → a ∈ l → b ∈ l → a < b → idxQ a l < idxQ b l := by
  intro l
  induction l with
  | nil => intro a b _ ha _ _; simp at ha
  | cons c t ih =>
    intro a b hp ha hb hab
    have hpc := List.pairwise_cons.mp hp
    by_cases hac : a = c
    · subst hac
      have hbc : b ≠ a := fun e => absurd (e ▸ hab) (lt_irrefl _)
      simp [idxQ, hbc]
    · by_cases hbc : b = c
      · subst hbc
        have : b < a := hpc.1 a ((List.mem_cons.mp ha).resolve_left hac)
        exact absurd (lt_trans hab this) (lt_irrefl _)
      · simp only [idxQ, if_neg hac, if_neg hbc]
        have := ih hpc.2 ((List.mem_cons.mp ha).resolve_left hac)
          ((List.mem_cons.mp hb).resolve_left hbc) hab
        omega

theorem idxQ_of_get? : ∀ {l : List ℚ} {j : ℕ} {a : ℚ},
    l.Nodup → l.get? j = some a → idxQ a l = j := by
  intro l
  induction l with
  | nil => intro j a _ h; simp at h
  | cons c t ih =>
    intro j a hn h
    cases j with
    | zero =>
      have : c = a := by simpa using h
      subst this
      simp [idxQ]
    | succ n =>
      have ht : t.get? n = some a := by simpa using h
      have ha : a ∈ t := List.get?_mem ht
      have hac : a ≠ c := fun e => (List.nodup_cons.mp hn).1 (e ▸ ha)
      simp only [idxQ, if_neg hac]
      rw [ih (List.nodup_cons.mp hn).2 ht]

theorem uniq_cont_perm (cont : List (Option ℚ)) :
    (uniq_cont cont).Perm (((cont.filterMap id).map round6).dedup) :=
  List.perm_insertionSort _ _

theorem uniq_cont_nodup (cont : List (Option ℚ)) : (uniq_cont cont).Nodup :=
  (uniq_cont_perm cont).nodup_iff.mpr (List.nodup_dedup _)

theorem uniq_cont_pairwise_lt (cont : List (Option ℚ)) :
    List.Pairwise (· < ·) (uniq_cont cont) :=
  List.Sorted.lt_of_le (List.sorted_insertionSort _ _) (uniq_cont_nodup cont)

theorem mem_uniq_cont {cont : List (Option ℚ)} {q : ℚ} (h : some q ∈ cont) :
    round6 q ∈ uniq_cont cont :=
  (uniq_cont_perm cont).mem_iff.mpr (List.mem_dedup.mpr
    (List.mem_map.mpr ⟨q, List.mem_filterMap.mpr ⟨some q, h, rfl⟩, rfl⟩))

/-- C7: after rounding every continuous coordinate to 6 decimal places, the
distinct rounded values of the batch, sorted ascending, receive dense
ordinals `1..K`; each row's `global_index` is the ordinal of its rounded
coordinate (position in the sorted distinct list plus one); rows without a
coordinate receive none; two rows share a `global_index` iff their rounded
coordinates are equal; a strictly smaller rounded coordinate gives a
strictly smaller `global_index`; the ordinals cover exactly `1..K` where `K`
is the number of distinct rounded values. -/
theorem C7_global_index_assignment (cont : List (Option ℚ)) :
    ((global_index_col cont).length = cont.length) ∧
    (∀ i, cont.get? i = some none → (global_index_col cont).get? i = some none) ∧
    (∀ i q, cont.get? i = some (some q) →
      (global_index_col cont).get? i =
        some (some (idxQ (round6 q) (uniq_cont cont) + 1))) ∧
    (∀ q1 q2, some q1 ∈ cont → some q2 ∈ cont →
      (idxQ (round6 q1) (uniq_cont cont) + 1 = idxQ (round6 q2) (uniq_cont cont) + 1 ↔
        round6 q1 = round6 q2)) ∧
    (∀ q1 q2, some q1 ∈ cont → some q2 ∈ cont → round6 q1 < round6 q2 →
      idxQ (round6 q1) (uniq_cont cont) + 1 < idxQ (round6 q2) (uniq_cont cont) + 1) ∧
    (∀ q, some q ∈ cont →
      1 ≤ idxQ (round6 q) (uniq_cont cont) + 1 ∧
      idxQ (round6 q) (uniq_cont cont) + 1 ≤ (uniq_cont cont).length) ∧
    (∀ j, 1 ≤ j → j ≤ (uniq_cont cont).length →
      ∃ q, some q ∈ cont ∧ idxQ (round6 q) (uniq_cont cont) + 1 = j) ∧
    ((uniq_cont cont).length = ((cont.filterMap id).map round6).dedup.length) := by
  refine ⟨?_, ?_, ?_, ?_, ?_, ?_, ?_, ?_⟩
  · simp [global_index_col]
  · intro i h
    unfold global_index_col
    rw [List.get?_map, h]
    rfl
  · intro i q h
    unfold global_index_col
    rw [List.get?_map, h]
    rfl
  · intro q1 q2 h1 h2
    constructor
    · intro h
      exact idxQ_inj (mem_uniq_cont h1) (mem_uniq_cont h2) (by omega)
    · intro h
      rw [h]
  · intro q1 q2 h1 h2 hlt
    have := idxQ_mono (uniq_cont_pairwise_lt cont) (mem_uniq_cont h1)
      (mem_uniq_cont h2) hlt
    omega
  · intro q h
    have := idxQ_lt_length (mem_uniq_cont h)
    omega
  · intro j h1 h2
    have hj : j - 1 < (uniq_cont cont).length := by omega
    obtain ⟨v, hv⟩ : ∃ v, (uniq_cont cont).get? (j - 1) = some v :=
      ⟨(uniq_cont cont).get ⟨j - 1, hj⟩, List.get?_eq_get hj⟩
    have hvmem : v ∈ uniq_cont cont := List.get?_mem hv
    have hvded : v ∈ ((cont.filterMap id).map round6).dedup :=
      (uniq_cont_perm cont).mem_iff.mp hvmem
    obtain ⟨q, hq, hqv⟩ := List.mem_map.mp (List.mem_dedup.mp hvded)
    obtain ⟨oq, hoq, hoq'⟩ := List.mem_filterMap.mp hq
    have hoq'' : oq = some q := hoq'
    refine ⟨q, hoq'' ▸ hoq, ?_⟩
    rw [hqv, idxQ_of_get? (uniq_cont_nodup cont) hv]
    omega
  · exact (uniq_cont_perm cont).length_eq

/-- C7 witness: on a concrete batch, a `NaN` coordinate row receives no
`global_index`, and a defined row receives the ordinal of its rounded
coordinate. -/
theorem C7_global_index_assignment_witness :
    (global_index_col [some 2, none, some 1]).get? 1 = some none ∧
    (global_index_col [some 2, none, some 1]).get? 0 =
      some (some (idxQ (round6 2) (uniq_cont [some 2, none, some 1]) + 1)) :=
  ⟨(C7_global_index_assignment [some 2, none, some 1]).2.1 1 rfl,
    (C7_global_index_assignment [some 2, none, some 1]).2.2.1 0 2 rfl⟩

/-! ### Claim C8 -/

/-- C8 counterexample: the two labels `"20a"` and `"20A"` have equal
comparator keys, so the stable sort leaves them in the order the (unordered,
hash-dependent) Python set iteration presented them: presenting the same set
of labels in a different order changes the resulting label-to-ordinal
mapping bit for bit, refuting "a function of the set of distinct labels
only, bit-for-bit reproducible". -/
theorem C8_counterexample :
    ((["20a", "20A"].filter validLabel).toFinset =
      (["20A", "20a"].filter validLabel).toFinset) ∧
    sort_key "20a" = sort_key "20A" ∧
    build_global_label_order ["20a", "20A"] ≠ build_global_label_order ["20A", "20a"] := by
  refine ⟨by decide, by decide, ?_⟩
  intro h
  have := congrArg Prod.fst h
  exact absurd this (by decide)

/-- C8 (amended): `build_global_label_order` is a function of the set of
distinct valid labels alone provided `sort_key` is injective on those labels
(no two distinct labels share a key — the tie case is the documented edge
case the code does not promise an order for); unconditionally, the produced
ordinals are contiguous `1..K` over the sorted unique labels. -/
theorem C8_label_order_deterministic :
    (∀ l1 l2 : List String,
      (l1.filter validLabel).toFinset = (l2.filter validLabel).toFinset →
      (∀ a ∈ l1.filter validLabel, ∀ b ∈ l1.filter validLabel,
        sort_key a = sort_key b → a = b) →
      build_global_label_order l1 = build_global_label_order l2) ∧
    (∀ l : List String,
      ((build_global_label_order l).2.map Prod.snd =
        (List.range (build_global_label_order l).1.length).map (· + 1)) ∧
      List.Pairwise label_le (build_global_label_order l).1 ∧
      (build_global_label_order l).1.Nodup ∧
      (∀ p : String, p ∈ (build_global_label_order l).1 ↔ p ∈ l.filter validLabel)) := by
  constructor
  · intro l1 l2 hset hinj
    have hmem : ∀ a : String, a ∈ (l1.filter validLabel).dedup ↔
        a ∈ (l2.filter validLabel).dedup := by
      intro a
      rw [List.mem_dedup, List.mem_dedup, ← List.mem_toFinset, hset, List.mem_toFinset]
    have hperm : ((l1.filter validLabel).dedup).Perm ((l2.filter validLabel).dedup) :=
      (List.perm_ext_iff_of_nodup (List.nodup_dedup _) (List.nodup_dedup _)).mpr hmem
    have hsp : (List.insertionSort label_le ((l1.filter validLabel).dedup)).Perm
        (List.insertionSort label_le ((l2.filter validLabel).dedup)) :=
      ((List.perm_insertionSort _ _).trans hperm).trans
        (List.perm_insertionSort _ _).symm
    have hinj' : ∀ a ∈ List.insertionSort label_le ((l1.filter validLabel).dedup),
        ∀ b ∈ List.insertionSort label_le ((l1.filter validLabel).dedup),
        sort_key a = sort_key b → a = b := by
      intro a ha b hb
      exact hinj a (List.mem_dedup.mp ((List.perm_insertionSort _ _).mem_iff.mp ha))
        b (List.mem_dedup.mp ((List.perm_insertionSort _ _).mem_iff.mp hb))
    have huniq : List.insertionSort label_le ((l1.filter validLabel).dedup) =
        List.insertionSort label_le ((l2.filter validLabel).dedup) :=
      eq_of_perm_sorted_of_key_inj _ _ hsp
        (List.sorted_insertionSort label_le _) (List.sorted_insertionSort label_le _) hinj'
    unfold build_global_label_order
    rw [huniq]
  · intro l
    refine ⟨?_, ?_, ?_, ?_⟩
    · show ((List.insertionSort label_le ((l.filter validLabel).dedup)).enum.map
        (fun p => (p.2, p.1 + 1))).map Prod.snd =
        (List.range (List.insertionSort label_le ((l.filter validLabel).dedup)).length).map
          (· + 1)
      rw [List.map_map]
      have h1 : (Prod.snd ∘ fun p : ℕ × String => (p.2, p.1 + 1)) =
          (fun p : ℕ × String => p.1 + 1) := rfl
      rw [h1]
      rw [show (fun p : ℕ × String => p.1 + 1) =
        ((· + 1) ∘ Prod.fst) from rfl]
      rw [← List.map_map, List.enum_map_fst]
    · show List.Pairwise label_le (List.insertionSort label_le ((l.filter validLabel).dedup))
      exact List.sorted_insertionSort label_le _
    · show (List.insertionSort label_le ((l.filter validLabel).dedup)).Nodup
      exact (List.perm_insertionSort label_le _).nodup_iff.mpr (List.nodup_dedup _)
    · intro p
      show p ∈ List.insertionSort label_le ((l.filter validLabel).dedup) ↔
        p ∈ l.filter validLabel
      rw [(List.perm_insertionSort label_le _).mem_iff, List.mem_dedup]

/-- C8 witness: presenting the same label set with different order and
multiplicity yields the identical order and mapping when keys are distinct. -/
theorem C8_label_order_deterministic_witness :
    build_global_label_order ["45", "44", "45"] = build_global_label_order ["44", "45"] :=
  C8_label_order_deterministic.1 ["45", "44", "45"] ["44", "45"] (by decide) (by decide)

end TrnasInSpace
